import Mathlib

/-!
Verification of the Triode balanced-ternary integer library.

The embedding follows the Rust sources:
* crates/bternary/src/balanced_int.rs : the generic fixed-width balanced
  ternary integer BalancedInt of N trits (stored least significant first),
  its conversions, ordering, arithmetic and sub-range operations.
* ternary/src/trit.rs : the single-digit Trit type and its full adder.

A value of N trits is modelled as a `List Trit` of length N, index 0 being
the least significant digit, exactly as the Rust array is indexed.
Machine integers (i16 / i64) are modelled as `Int`; the Rust truncating
division and remainder are `Int.tdiv` and `Int.tmod`.  A Rust panic is
modelled as `Option.none`.
-/

/-- The balanced ternary digit, from `enum Trit { Neg = -1, Zero = 0, Pos = 1 }`. -/
inductive Trit : Type where
  | Neg : Trit
  | Zero : Trit
  | Pos : Trit
deriving DecidableEq, Repr

namespace Trit

/-- The numeric value of a trit, `trit as i8` in the Rust source. -/
def toInt : Trit → Int
  | Neg => -1
  | Zero => 0
  | Pos => 1

/-- `TryFrom<i8> for Trit`: succeeds exactly on -1, 0, 1. -/
def tryFrom (v : Int) : Option Trit :=
  if v = -1 then some Neg
  else if v = 0 then some Zero
  else if v = 1 then some Pos
  else none

/-- Integer model of the Rust expression `(sum as f32 / 3.0).round() as i8`
for `sum` in [-3, 3]: rounding half away from zero of sum / 3.  For these
seven inputs the f32 computation is exact, and no halves occur, so the
float rounding agrees with this integer formula. -/
def roundDiv3 (s : Int) : Int :=
  if 0 ≤ s then (2 * s + 3) / 6 else -((2 * (-s) + 3) / 6)

/-- `Trit::full_add` from ternary/src/trit.rs: sum the three digit values,
take the rounded carry, and convert the balanced residual back to a trit.
The two `unwrap` calls of the source never fail (lemma `full_add_unwrap_ok`);
they are modelled with a default that is never reached. -/
def full_add (a b carry_in : Trit) : Trit × Trit :=
  let sum := a.toInt + b.toInt + carry_in.toInt
  let carry := roundDiv3 sum
  let result := sum - carry * 3
  ((tryFrom result).getD Trit.Zero, (tryFrom carry).getD Trit.Zero)

/-- `Trit::negate`. -/
def negate : Trit → Trit
  | Neg => Pos
  | Zero => Zero
  | Pos => Neg

/-- `Trit::multiply`: the integer product, always back in {-1,0,1}. -/
def multiply (a b : Trit) : Trit :=
  (tryFrom (a.toInt * b.toInt)).getD Trit.Zero

/-- The `unwrap` calls inside `Trit::full_add` always succeed. -/
theorem full_add_unwrap_ok (a b c : Trit) :
    (tryFrom (a.toInt + b.toInt + c.toInt -
      roundDiv3 (a.toInt + b.toInt + c.toInt) * 3)).isSome = true ∧
    (tryFrom (roundDiv3 (a.toInt + b.toInt + c.toInt))).isSome = true := by
  cases a <;> cases b <;> cases c <;> exact ⟨rfl, rfl⟩

theorem full_add_spec (a b c : Trit) :
    ((full_add a b c).1).toInt + 3 * ((full_add a b c).2).toInt =
      a.toInt + b.toInt + c.toInt := by
  cases a <;> cases b <;> cases c <;> rfl

end Trit

/-- Claim C3: for all 27 combinations of inputs (a, b, carry_in) drawn from
{-1, 0, 1}, `Trit::full_add(a, b, carry_in)` returns (sum, carry_out) with
sum in {-1, 0, 1} and sum + 3 * carry_out exactly equal to a + b + carry_in. -/
theorem claim_C3_trit_full_add (a b c : Trit) :
    ((Trit.full_add a b c).1).toInt + 3 * ((Trit.full_add a b c).2).toInt =
      a.toInt + b.toInt + c.toInt ∧
    (-1 ≤ ((Trit.full_add a b c).1).toInt ∧ ((Trit.full_add a b c).1).toInt ≤ 1) := by
  cases a <;> cases b <;> cases c <;> exact ⟨rfl, by decide⟩

namespace BalancedInt

/-- `BalancedInt::to_int` from crates/bternary/src/balanced_int.rs: Horner
evaluation, for i from N-1 down to 0, acc = acc * 3 + trit[i].  On a least
significant first list this is exactly the right fold below. -/
def to_int (xs : List Trit) : Int :=
  xs.foldr (fun t acc => 3 * acc + t.toInt) 0

/-- The largest value representable in n trits, (3 ^ n - 1) / 2, written
recursively so that linear arithmetic can use it. -/
def maxRep : Nat → Int
  | 0 => 0
  | n + 1 => 3 * maxRep n + 1

theorem two_maxRep (n : Nat) : 2 * maxRep n + 1 = (3 : Int) ^ n := by
  induction n with
  | zero => rfl
  | succ n ih => rw [maxRep, pow_succ]; linarith

theorem maxRep_nonneg (n : Nat) : 0 ≤ maxRep n := by
  induction n with
  | zero => exact le_refl 0
  | succ n ih => rw [maxRep]; linarith

theorem maxRep_eq (n : Nat) : maxRep n = ((3 : Int) ^ n - 1) / 2 := by
  rw [← two_maxRep n]
  omega

/-- The `match rem` arm of `BalancedInt::from_int`; the final arm of the
source is `unreachable!`, modelled by a default that is never hit (the
argument is always in {-1, 0, 1}). -/
def tritOfBalanced (r : Int) : Trit :=
  if r = -1 then Trit.Neg
  else if r = 0 then Trit.Zero
  else if r = 1 then Trit.Pos
  else Trit.Zero

/-- The balanced remainder of one `from_int` loop iteration: `value % 3`
with Rust truncating `%` (`Int.tmod`), rebalanced from 2 to -1 and from
-2 to 1. -/
def balDigit (v : Int) : Int :=
  if v.tmod 3 = 2 then -1
  else if v.tmod 3 = -2 then 1
  else v.tmod 3

/-- The running value after one `from_int` loop iteration: `value /= 3`
with Rust truncating division (`Int.tdiv`), with the compensation `+ 1`
and `- 1` of the rebalancing arms. -/
def balNext (v : Int) : Int :=
  if v.tmod 3 = 2 then v.tdiv 3 + 1
  else if v.tmod 3 = -2 then v.tdiv 3 - 1
  else v.tdiv 3

/-- The digit loop of `BalancedInt::from_int`, producing the written trits
(least significant first) together with the value that remains after the
iterations; the source breaks out of the loop when the value reaches zero,
leaving the remaining trits at their Zero initialisation. -/
def fromIntLoop : Nat → Int → List Trit × Int
  | 0, v => ([], v)
  | n + 1, v =>
    if v = 0 then (List.replicate (n + 1) Trit.Zero, 0)
    else (tritOfBalanced (balDigit v) :: (fromIntLoop n (balNext v)).1,
          (fromIntLoop n (balNext v)).2)

/-- `BalancedInt::<N>::from_int(value)`: run the digit loop for N trits and
keep the written digits (any non-zero leftover is silently dropped,
which is the wraparound convention of the source). -/
def from_int (N : Nat) (v : Int) : List Trit :=
  (fromIntLoop N v).1

theorem tmod3_range (v : Int) : -2 ≤ v.tmod 3 ∧ v.tmod 3 ≤ 2 := by
  rcases v with m | m
  · have h0 : 0 ≤ (Int.ofNat m).tmod 3 := Int.tmod_nonneg 3 (Int.ofNat_nonneg m)
    have h1 : (Int.ofNat m).tmod 3 < 3 := Int.tmod_lt_of_pos (Int.ofNat m) (by norm_num)
    omega
  · have h : (Int.negSucc m).tmod 3 = -(((m + 1) % 3 : Nat) : Int) := rfl
    have h2 : (m + 1) % 3 < 3 := Nat.mod_lt (m + 1) (by norm_num)
    omega

theorem balanced_step (v : Int) : 3 * balNext v + balDigit v = v := by
  have h := Int.tdiv_add_tmod v 3
  have hr := tmod3_range v
  unfold balNext balDigit
  split_ifs <;> omega

theorem balDigit_range (v : Int) : -1 ≤ balDigit v ∧ balDigit v ≤ 1 := by
  have hr := tmod3_range v
  unfold balDigit
  split_ifs <;> omega

theorem toInt_tritOfBalanced {r : Int} (h1 : -1 ≤ r) (h2 : r ≤ 1) :
    (tritOfBalanced r).toInt = r := by
  interval_cases r <;> rfl

theorem to_int_nil : to_int [] = 0 := rfl

theorem to_int_cons (t : Trit) (ts : List Trit) :
    to_int (t :: ts) = 3 * to_int ts + t.toInt := rfl

theorem to_int_replicate_zero (n : Nat) :
    to_int (List.replicate n Trit.Zero) = 0 := by
  induction n with
  | zero => rfl
  | succ n ih => rw [List.replicate_succ, to_int_cons, ih]; rfl

theorem to_int_append (as bs : List Trit) :
    to_int (as ++ bs) = to_int as + 3 ^ as.length * to_int bs := by
  induction as with
  | nil => simp [to_int]
  | cons a as ih =>
      simp only [List.cons_append, to_int_cons, ih, List.length_cons, pow_succ]
      ring

theorem toInt_range (t : Trit) : -1 ≤ t.toInt ∧ t.toInt ≤ 1 := by
  cases t <;> exact ⟨by decide, by decide⟩

theorem to_int_bound (xs : List Trit) :
    -maxRep xs.length ≤ to_int xs ∧ to_int xs ≤ maxRep xs.length := by
  induction xs with
  | nil => exact ⟨le_refl 0, le_refl 0⟩
  | cons t ts ih =>
      have ht := toInt_range t
      have hm : maxRep (ts.length + 1) = 3 * maxRep ts.length + 1 := rfl
      rw [to_int_cons, List.length_cons]
      omega

theorem fromIntLoop_length (n : Nat) (v : Int) : (fromIntLoop n v).1.length = n := by
  induction n generalizing v with
  | zero => rfl
  | succ n ih =>
      by_cases h : v = 0
      · simp [fromIntLoop, h]
      · simp [fromIntLoop, h, ih]

theorem fromIntLoop_value (n : Nat) (v : Int) :
    to_int (fromIntLoop n v).1 + 3 ^ n * (fromIntLoop n v).2 = v := by
  induction n generalizing v with
  | zero => simp [fromIntLoop, to_int]
  | succ n ih =>
      by_cases h : v = 0
      · simp [fromIntLoop, h, to_int_replicate_zero]
      · have hd := balDigit_range v
        have hstep := balanced_step v
        have hih := ih (balNext v)
        have hexp : fromIntLoop (n + 1) v =
            (tritOfBalanced (balDigit v) :: (fromIntLoop n (balNext v)).1,
             (fromIntLoop n (balNext v)).2) := by
          simp only [fromIntLoop]
          rw [if_neg h]
        rw [hexp]
        dsimp only
        rw [to_int_cons, toInt_tritOfBalanced hd.1 hd.2, pow_succ]
        linarith

theorem fromIntLoop_rest_zero (n : Nat) (v : Int)
    (h1 : -maxRep n ≤ v) (h2 : v ≤ maxRep n) : (fromIntLoop n v).2 = 0 := by
  induction n generalizing v with
  | zero =>
      have : maxRep 0 = 0 := rfl
      simp [fromIntLoop]; omega
  | succ n ih =>
      by_cases h : v = 0
      · simp [fromIntLoop, h]
      · have hd := balDigit_range v
        have hstep := balanced_step v
        have hm : maxRep (n + 1) = 3 * maxRep n + 1 := rfl
        have hb1 : -maxRep n ≤ balNext v := by omega
        have hb2 : balNext v ≤ maxRep n := by omega
        have hexp : fromIntLoop (n + 1) v =
            (tritOfBalanced (balDigit v) :: (fromIntLoop n (balNext v)).1,
             (fromIntLoop n (balNext v)).2) := by
          simp only [fromIntLoop]
          rw [if_neg h]
        rw [hexp]
        exact ih (balNext v) hb1 hb2

theorem from_int_length (N : Nat) (v : Int) : (from_int N v).length = N :=
  fromIntLoop_length N v

theorem round_trip (N : Nat) (v : Int)
    (h1 : -maxRep N ≤ v) (h2 : v ≤ maxRep N) :
    to_int (from_int N v) = v := by
  have hv := fromIntLoop_value N v
  have hz := fromIntLoop_rest_zero N v h1 h2
  unfold from_int
  rw [hz, mul_zero, add_zero] at hv
  exact hv

end BalancedInt

/-- Claim C1: for every width N and every integer v in the representable
range, that is -(3 ^ N - 1) / 2 = -maxRep N up to (3 ^ N - 1) / 2 = maxRep N,
converting v with `BalancedInt::from_int` and back with
`BalancedInt::to_int` returns exactly v. -/
theorem claim_C1_round_trip (N : Nat) (v : Int)
    (h1 : -BalancedInt.maxRep N ≤ v) (h2 : v ≤ BalancedInt.maxRep N) :
    BalancedInt.to_int (BalancedInt.from_int N v) = v :=
  BalancedInt.round_trip N v h1 h2

/-- Witness for claim C1 at the Tryte width N = 6 and v = 13. -/
theorem claim_C1_round_trip_witness :
    BalancedInt.to_int (BalancedInt.from_int 6 13) = 13 :=
  claim_C1_round_trip 6 13 (by decide) (by decide)

namespace BalancedInt

/-- `BalancedInt::negate`: element-wise trit negation. -/
def negate (xs : List Trit) : List Trit :=
  xs.map Trit.negate

/-- The ripple-carry loop of `BalancedInt::full_add`: at each index apply
`Trit::full_add` to the two digits and the running carry, collecting the
digit sums and the final carry. -/
def rippleAdd : Trit → List Trit → List Trit → List Trit × Trit
  | c, a :: as, b :: bs =>
      ((Trit.full_add a b c).1 :: (rippleAdd (Trit.full_add a b c).2 as bs).1,
       (rippleAdd (Trit.full_add a b c).2 as bs).2)
  | c, _, _ => ([], c)

/-- `BalancedInt::full_add(other, carry_in) -> (sum, carry)`. -/
def full_add (xs ys : List Trit) (carry_in : Trit) : List Trit × Trit :=
  rippleAdd carry_in xs ys

/-- The `+` operator (`impl Add`): `full_add` with carry_in Zero, the final
carry dropped. -/
def add (xs ys : List Trit) : List Trit :=
  (full_add xs ys Trit.Zero).1

/-- The separate in-place loop of `impl AddAssign`: updates position i with
the digit sum while the carry ripples, never keeping the final carry. -/
def addAssignGo : Trit → List Trit → List Trit → List Trit
  | c, a :: as, b :: bs =>
      (Trit.full_add a b c).1 :: addAssignGo (Trit.full_add a b c).2 as bs
  | _, as, _ => as

/-- The `+=` operator (`impl AddAssign`). -/
def add_assign (xs ys : List Trit) : List Trit :=
  addAssignGo Trit.Zero xs ys

/-- The `-` operator (`impl Sub`): `self + rhs.negate()`. -/
def sub (xs ys : List Trit) : List Trit :=
  add xs (negate ys)

/-- `BalancedInt::shift_left(amt)`: result[i] = self[i - amt] for
amt ≤ i < N, Zero below amt, digits shifted beyond N dropped. -/
def shift_left (xs : List Trit) (amt : Nat) : List Trit :=
  (List.replicate amt Trit.Zero ++ xs).take xs.length

theorem negate_toInt (t : Trit) : (Trit.negate t).toInt = -t.toInt := by
  cases t <;> rfl

theorem to_int_negate (xs : List Trit) : to_int (negate xs) = -to_int xs := by
  induction xs with
  | nil => rfl
  | cons a as ih =>
      show to_int (Trit.negate a :: negate as) = _
      rw [to_int_cons, to_int_cons, ih, negate_toInt]
      ring

theorem negate_length (xs : List Trit) : (negate xs).length = xs.length :=
  List.length_map xs Trit.negate

theorem rippleAdd_length (c : Trit) (xs ys : List Trit) :
    (rippleAdd c xs ys).1.length = min xs.length ys.length := by
  induction xs generalizing c ys with
  | nil => cases ys <;> simp [rippleAdd]
  | cons a as ih =>
      cases ys with
      | nil => simp [rippleAdd]
      | cons b bs =>
          simp [rippleAdd, ih]
          omega

theorem rippleAdd_value (c : Trit) (xs ys : List Trit) (h : xs.length = ys.length) :
    to_int (rippleAdd c xs ys).1 +
      3 ^ xs.length * ((rippleAdd c xs ys).2).toInt =
    to_int xs + to_int ys + c.toInt := by
  induction xs generalizing c ys with
  | nil =>
      cases ys with
      | nil => simp [rippleAdd, to_int]
      | cons b bs => exact absurd h (by simp)
  | cons a as ih =>
      cases ys with
      | nil => exact absurd h (by simp)
      | cons b bs =>
          have hlen : as.length = bs.length := by
            simpa using h
          have hfa := Trit.full_add_spec a b c
          have hih := ih (Trit.full_add a b c).2 bs hlen
          show to_int ((Trit.full_add a b c).1 ::
              (rippleAdd (Trit.full_add a b c).2 as bs).1) +
            3 ^ (as.length + 1) *
              ((rippleAdd (Trit.full_add a b c).2 as bs).2).toInt = _
          rw [to_int_cons, to_int_cons, to_int_cons, pow_succ]
          linarith

theorem addAssignGo_eq (c : Trit) (xs ys : List Trit) (h : xs.length = ys.length) :
    addAssignGo c xs ys = (rippleAdd c xs ys).1 := by
  induction xs generalizing c ys with
  | nil =>
      cases ys with
      | nil => rfl
      | cons b bs => exact absurd h (by simp)
  | cons a as ih =>
      cases ys with
      | nil => exact absurd h (by simp)
      | cons b bs =>
          have hlen : as.length = bs.length := by simpa using h
          show (Trit.full_add a b c).1 :: addAssignGo (Trit.full_add a b c).2 as bs = _
          rw [ih _ bs hlen]
          rfl

theorem add_length (xs ys : List Trit) :
    (add xs ys).length = min xs.length ys.length :=
  rippleAdd_length Trit.Zero xs ys

/-- Dropping the final carry wraps the sum modulo 3 ^ N. -/
theorem add_congr (xs ys : List Trit) (h : xs.length = ys.length) :
    Int.ModEq (3 ^ xs.length) (to_int (add xs ys)) (to_int xs + to_int ys) := by
  have hv := rippleAdd_value Trit.Zero xs ys h
  have hz : (Trit.Zero).toInt = 0 := rfl
  rw [hz, add_zero] at hv
  show Int.ModEq _ (to_int (rippleAdd Trit.Zero xs ys).1) _
  refine Int.modEq_iff_dvd.mpr ⟨((rippleAdd Trit.Zero xs ys).2).toInt, ?_⟩
  linarith

theorem sub_congr (xs ys : List Trit) (h : xs.length = ys.length) :
    Int.ModEq (3 ^ xs.length) (to_int (sub xs ys)) (to_int xs - to_int ys) := by
  have hn : (negate ys).length = ys.length := negate_length ys
  have := add_congr xs (negate ys) (by rw [hn]; exact h)
  rw [to_int_negate] at this
  simpa [sub, sub_eq_add_neg] using this

theorem sub_length (xs ys : List Trit) :
    (sub xs ys).length = min xs.length ys.length := by
  have := add_length xs (negate ys)
  rwa [negate_length] at this

/-- Two values of the balanced range that agree modulo 3 ^ n are equal. -/
theorem eq_of_modEq_bounded {n : Nat} {a b : Int} (h : Int.ModEq (3 ^ n) a b)
    (ha1 : -maxRep n ≤ a) (ha2 : a ≤ maxRep n)
    (hb1 : -maxRep n ≤ b) (hb2 : b ≤ maxRep n) : a = b := by
  rcases Int.modEq_iff_dvd.mp h with ⟨k, hk⟩
  have h3 : 2 * maxRep n + 1 = (3 : Int) ^ n := two_maxRep n
  have hpos : (0 : Int) < 3 ^ n := by positivity
  have hk0 : k = 0 := by
    rcases le_or_lt 1 k with hk1 | hk1
    · have := mul_le_mul_of_nonneg_left hk1 hpos.le
      rw [mul_one] at this
      linarith
    · rcases le_or_lt k (-1) with hk2 | hk2
      · have := mul_le_mul_of_nonneg_left hk2 hpos.le
        rw [mul_neg_one] at this
        linarith
      · omega
  rw [hk0, mul_zero] at hk
  linarith

theorem maxRep_one_le (N : Nat) (h : 1 ≤ N) : (1 : Int) ≤ maxRep N := by
  cases N with
  | zero => omega
  | succ n =>
      have := maxRep_nonneg n
      rw [maxRep]
      linarith

end BalancedInt

/-- Claim C10: the compound assignment `+=` (the separate in-place
ripple-carry loop of `impl AddAssign`) produces exactly the same trit
array as the `+` operator (`impl Add` via `full_add`); both drop the final
carry identically. -/
theorem claim_C10_add_assign_eq_add (xs ys : List Trit)
    (h : xs.length = ys.length) :
    BalancedInt.add_assign xs ys = BalancedInt.add xs ys :=
  BalancedInt.addAssignGo_eq Trit.Zero xs ys h

/-- Witness for claim C10 at width 6, values 5 and 3. -/
theorem claim_C10_add_assign_eq_add_witness :
    BalancedInt.add_assign (BalancedInt.from_int 6 5) (BalancedInt.from_int 6 3) =
      BalancedInt.add (BalancedInt.from_int 6 5) (BalancedInt.from_int 6 3) :=
  claim_C10_add_assign_eq_add (BalancedInt.from_int 6 5) (BalancedInt.from_int 6 3)
    (by decide)

/-- Claim C6: for every width N of at least one trit, adding the
representation of 1 to the maximum representable value maxRep N =
(3 ^ N - 1) / 2 with the `+` operator yields the minimum representable
value -maxRep N: the final carry is dropped and the result wraps modulo
the full span. -/
theorem claim_C6_overflow_wraparound (N : Nat) (h : 1 ≤ N) :
    BalancedInt.to_int
      (BalancedInt.add (BalancedInt.from_int N (BalancedInt.maxRep N))
        (BalancedInt.from_int N 1)) = -(BalancedInt.maxRep N) := by
  have hmax := BalancedInt.maxRep_nonneg N
  have h1le := BalancedInt.maxRep_one_le N h
  have hla := BalancedInt.from_int_length N (BalancedInt.maxRep N)
  have hlb := BalancedInt.from_int_length N 1
  have hta : BalancedInt.to_int (BalancedInt.from_int N (BalancedInt.maxRep N)) =
      BalancedInt.maxRep N :=
    BalancedInt.round_trip N _ (by linarith) (le_refl _)
  have htb : BalancedInt.to_int (BalancedInt.from_int N 1) = 1 :=
    BalancedInt.round_trip N 1 (by linarith) h1le
  have hcong := BalancedInt.add_congr (BalancedInt.from_int N (BalancedInt.maxRep N))
    (BalancedInt.from_int N 1) (by rw [hla, hlb])
  rw [hta, htb, hla] at hcong
  have h3 := BalancedInt.two_maxRep N
  have hcong2 : Int.ModEq ((3 : Int) ^ N) (BalancedInt.maxRep N + 1)
      (-(BalancedInt.maxRep N)) :=
    Int.modEq_iff_dvd.mpr ⟨-1, by linarith⟩
  have hbound := BalancedInt.to_int_bound
    (BalancedInt.add (BalancedInt.from_int N (BalancedInt.maxRep N))
      (BalancedInt.from_int N 1))
  rw [BalancedInt.add_length, hla, hlb, min_self] at hbound
  exact BalancedInt.eq_of_modEq_bounded (hcong.trans hcong2)
    hbound.1 hbound.2 (by linarith) (by linarith)

/-- Witness for claim C6 at the Tryte width N = 6. -/
theorem claim_C6_overflow_wraparound_witness :
    BalancedInt.to_int
      (BalancedInt.add (BalancedInt.from_int 6 (BalancedInt.maxRep 6))
        (BalancedInt.from_int 6 1)) = -(BalancedInt.maxRep 6) :=
  claim_C6_overflow_wraparound 6 (by decide)

namespace BalancedInt

/-- A three-way integer comparison, the contract of `Ord` on the native
integers: lt when a < b, eq when equal, gt otherwise. -/
def intCompare (a b : Int) : Ordering :=
  if a < b then Ordering.lt else if a = b then Ordering.eq else Ordering.gt

/-- Comparison of two trits with Pos > Zero > Neg.  The bternary crate
derives the trit order from its digit declaration order (its trit module
is declared in lib.rs; the spec fixes Pos > Zero > Neg, which is the
numeric order of the digit values). -/
def tritCmp (a b : Trit) : Ordering :=
  intCompare a.toInt b.toInt

/-- The scanning loop of `impl Ord for BalancedInt`, viewed on most
significant first lists: decide at the first differing position, equal
when no position differs. -/
def lexCmp : List Trit → List Trit → Ordering
  | a :: as, b :: bs =>
      match tritCmp a b with
      | Ordering.eq => lexCmp as bs
      | c => c
  | _, _ => Ordering.eq

/-- `BalancedInt::cmp`: scan the trits from index N-1 down to 0. -/
def cmp (xs ys : List Trit) : Ordering :=
  lexCmp xs.reverse ys.reverse

/-- Value of a most significant first digit list. -/
def vMSB (as : List Trit) : Int :=
  as.foldl (fun acc t => 3 * acc + t.toInt) 0

theorem foldl_horner (as : List Trit) (acc : Int) :
    as.foldl (fun acc t => 3 * acc + t.toInt) acc =
      acc * 3 ^ as.length + vMSB as := by
  induction as generalizing acc with
  | nil => simp [vMSB]
  | cons a as ih =>
      show as.foldl _ (3 * acc + a.toInt) = _
      rw [ih (3 * acc + a.toInt)]
      have : vMSB (a :: as) = a.toInt * 3 ^ as.length + vMSB as := by
        show as.foldl _ (3 * 0 + a.toInt) = _
        rw [ih (3 * 0 + a.toInt)]
        ring
      rw [List.length_cons, this, pow_succ]
      ring

theorem vMSB_cons (a : Trit) (as : List Trit) :
    vMSB (a :: as) = a.toInt * 3 ^ as.length + vMSB as := by
  show as.foldl _ (3 * 0 + a.toInt) = _
  rw [foldl_horner]
  ring

theorem vMSB_reverse (xs : List Trit) : vMSB xs.reverse = to_int xs := by
  unfold vMSB to_int
  rw [List.foldl_reverse]

theorem vMSB_bound (as : List Trit) :
    -maxRep as.length ≤ vMSB as ∧ vMSB as ≤ maxRep as.length := by
  have h := to_int_bound as.reverse
  rw [List.length_reverse] at h
  have h2 : vMSB as = to_int as.reverse := by
    rw [← vMSB_reverse as.reverse, List.reverse_reverse]
  rw [h2]
  exact h

theorem tritCmp_eq_iff (a b : Trit) : tritCmp a b = Ordering.eq ↔ a = b := by
  cases a <;> cases b <;> decide

theorem tritCmp_lt_iff (a b : Trit) : tritCmp a b = Ordering.lt ↔ a.toInt < b.toInt := by
  cases a <;> cases b <;> decide

theorem tritCmp_gt_iff (a b : Trit) : tritCmp a b = Ordering.gt ↔ b.toInt < a.toInt := by
  cases a <;> cases b <;> decide

theorem intCompare_add_left (c x y : Int) :
    intCompare (c + x) (c + y) = intCompare x y := by
  unfold intCompare
  split_ifs <;> first | rfl | omega

theorem intCompare_lt {x y : Int} (h : x < y) : intCompare x y = Ordering.lt := by
  unfold intCompare
  rw [if_pos h]

theorem intCompare_gt {x y : Int} (h : y < x) : intCompare x y = Ordering.gt := by
  unfold intCompare
  rw [if_neg (by omega), if_neg (by omega)]

theorem lexCmp_eq_intCompare (as bs : List Trit) (h : as.length = bs.length) :
    lexCmp as bs = intCompare (vMSB as) (vMSB bs) := by
  induction as generalizing bs with
  | nil =>
      cases bs with
      | nil => rfl
      | cons b bs => exact absurd h (by simp)
  | cons a as ih =>
      cases bs with
      | nil => exact absurd h (by simp)
      | cons b bs =>
          have hlen : as.length = bs.length := by simpa using h
          have hb := vMSB_bound as
          have hb2 := vMSB_bound bs
          have h3 : (0 : Int) < 3 ^ as.length := by positivity
          have h2m := two_maxRep as.length
          rw [vMSB_cons, vMSB_cons, ← hlen]
          rcases htc : tritCmp a b with hc | hc | hc
          · show (match tritCmp a b with
              | Ordering.eq => lexCmp as bs
              | c => c) = _
            rw [htc]
            have hab : a.toInt < b.toInt := (tritCmp_lt_iff a b).mp htc
            have hab1 : a.toInt - b.toInt ≤ -1 := by omega
            have := mul_le_mul_of_nonneg_right hab1 h3.le
            rw [neg_one_mul] at this
            refine (intCompare_lt ?_).symm
            rw [sub_mul] at this
            linarith [hb.2, hb2.1, hlen ▸ hb2.1]
          · have hab : a = b := (tritCmp_eq_iff a b).mp htc
            subst hab
            show (match tritCmp a a with
              | Ordering.eq => lexCmp as bs
              | c => c) = _
            rw [htc, intCompare_add_left]
            exact ih bs hlen
          · show (match tritCmp a b with
              | Ordering.eq => lexCmp as bs
              | c => c) = _
            rw [htc]
            have hab : b.toInt < a.toInt := (tritCmp_gt_iff a b).mp htc
            have hab1 : b.toInt - a.toInt ≤ -1 := by omega
            have := mul_le_mul_of_nonneg_right hab1 h3.le
            rw [neg_one_mul] at this
            refine (intCompare_gt ?_).symm
            rw [sub_mul] at this
            linarith [hb.1, hb2.2, hlen ▸ hb2.2]

theorem lexCmp_eq_iff (as bs : List Trit) (h : as.length = bs.length) :
    lexCmp as bs = Ordering.eq ↔ as = bs := by
  induction as generalizing bs with
  | nil =>
      cases bs with
      | nil => simp [lexCmp]
      | cons b bs => exact absurd h (by simp)
  | cons a as ih =>
      cases bs with
      | nil => exact absurd h (by simp)
      | cons b bs =>
          have hlen : as.length = bs.length := by simpa using h
          rcases htc : tritCmp a b with hc | hc | hc
          · constructor
            · intro habs
              have : lexCmp (a :: as) (b :: bs) = Ordering.lt := by
                show (match tritCmp a b with
                  | Ordering.eq => lexCmp as bs
                  | c => c) = _
                rw [htc]
              rw [this] at habs
              exact absurd habs (by decide)
            · intro habs
              cases habs
              rw [(tritCmp_eq_iff a a).mpr rfl] at htc
              exact absurd htc (by decide)
          · have hab : a = b := (tritCmp_eq_iff a b).mp htc
            subst hab
            have hstep : lexCmp (a :: as) (a :: bs) = lexCmp as bs := by
              show (match tritCmp a a with
                | Ordering.eq => lexCmp as bs
                | c => c) = _
              rw [htc]
            rw [hstep]
            rw [ih bs hlen]
            constructor
            · intro hh
              rw [hh]
            · intro hh
              injection hh
          · constructor
            · intro habs
              have : lexCmp (a :: as) (b :: bs) = Ordering.gt := by
                show (match tritCmp a b with
                  | Ordering.eq => lexCmp as bs
                  | c => c) = _
                rw [htc]
              rw [this] at habs
              exact absurd habs (by decide)
            · intro habs
              cases habs
              rw [(tritCmp_eq_iff a a).mpr rfl] at htc
              exact absurd htc (by decide)

end BalancedInt

/-- Claim C5: for every pair of equal-width values, `BalancedInt::cmp`
(scan from the most significant index down, Pos > Zero > Neg at the first
differing position) agrees with the comparison of the integer values, and
it reports equality exactly when all trits agree. -/
theorem claim_C5_ordering (xs ys : List Trit) (h : xs.length = ys.length) :
    BalancedInt.cmp xs ys =
      BalancedInt.intCompare (BalancedInt.to_int xs) (BalancedInt.to_int ys) ∧
    (BalancedInt.cmp xs ys = Ordering.eq ↔ xs = ys) := by
  have hrev : xs.reverse.length = ys.reverse.length := by
    rw [List.length_reverse, List.length_reverse]
    exact h
  constructor
  · show BalancedInt.lexCmp xs.reverse ys.reverse = _
    rw [BalancedInt.lexCmp_eq_intCompare xs.reverse ys.reverse hrev,
        BalancedInt.vMSB_reverse, BalancedInt.vMSB_reverse]
  · show BalancedInt.lexCmp xs.reverse ys.reverse = Ordering.eq ↔ _
    rw [BalancedInt.lexCmp_eq_iff xs.reverse ys.reverse hrev]
    exact List.reverse_inj

/-- Witness for claim C5 at width 6, values 5 and 3. -/
theorem claim_C5_ordering_witness :
    BalancedInt.cmp (BalancedInt.from_int 6 5) (BalancedInt.from_int 6 3) =
      BalancedInt.intCompare (BalancedInt.to_int (BalancedInt.from_int 6 5))
        (BalancedInt.to_int (BalancedInt.from_int 6 3)) :=
  (claim_C5_ordering (BalancedInt.from_int 6 5) (BalancedInt.from_int 6 3)
    (by decide)).1

namespace BalancedInt

theorem shift_left_length (xs : List Trit) (amt : Nat) :
    (shift_left xs amt).length = xs.length := by
  unfold shift_left
  rw [List.length_take, List.length_append, List.length_replicate]
  omega

theorem shift_left_congr (xs : List Trit) (amt : Nat) :
    Int.ModEq (3 ^ xs.length) (to_int (shift_left xs amt))
      (3 ^ amt * to_int xs) := by
  have hL : to_int (List.replicate amt Trit.Zero ++ xs) = 3 ^ amt * to_int xs := by
    rw [to_int_append, to_int_replicate_zero, List.length_replicate]
    ring
  have hsplit : (List.replicate amt Trit.Zero ++ xs).take xs.length ++
      (List.replicate amt Trit.Zero ++ xs).drop xs.length =
      List.replicate amt Trit.Zero ++ xs :=
    List.take_append_drop xs.length (List.replicate amt Trit.Zero ++ xs)
  have hlen : ((List.replicate amt Trit.Zero ++ xs).take xs.length).length = xs.length := by
    rw [List.length_take, List.length_append, List.length_replicate]
    omega
  have hval : 3 ^ amt * to_int xs =
      to_int (shift_left xs amt) +
        3 ^ xs.length *
          to_int ((List.replicate amt Trit.Zero ++ xs).drop xs.length) := by
    rw [← hL]
    conv_lhs => rw [← hsplit]
    rw [to_int_append, hlen]
    rfl
  exact Int.modEq_iff_dvd.mpr
    ⟨to_int ((List.replicate amt Trit.Zero ++ xs).drop xs.length), by linarith⟩

theorem addAssignGo_length (c : Trit) (xs ys : List Trit) :
    (addAssignGo c xs ys).length = xs.length := by
  induction xs generalizing c ys with
  | nil => cases ys <;> rfl
  | cons a as ih =>
      cases ys with
      | nil => rfl
      | cons b bs =>
          show ((Trit.full_add a b c).1 ::
            addAssignGo (Trit.full_add a b c).2 as bs).length = as.length + 1
          rw [List.length_cons, ih]

theorem add_assign_length (xs ys : List Trit) :
    (add_assign xs ys).length = xs.length :=
  addAssignGo_length Trit.Zero xs ys

theorem add_assign_congr (xs ys : List Trit) (h : xs.length = ys.length) :
    Int.ModEq (3 ^ xs.length) (to_int (add_assign xs ys))
      (to_int xs + to_int ys) := by
  unfold add_assign
  rw [addAssignGo_eq Trit.Zero xs ys h]
  exact add_congr xs ys h

/-- The loop of `impl MulAssign`: the accumulator starts at zero; for each
index i of rhs (ascending), if the trit is Pos add the multiplicand shifted
left by i, if Neg add the negated multiplicand shifted left by i, if Zero
skip. -/
def mulLoop (x : List Trit) : Nat → List Trit → List Trit → List Trit
  | _, [], acc => acc
  | i, t :: ts, acc =>
      match t with
      | Trit.Zero => mulLoop x (i + 1) ts acc
      | Trit.Pos => mulLoop x (i + 1) ts (add_assign acc (shift_left x i))
      | Trit.Neg => mulLoop x (i + 1) ts (add_assign acc (shift_left (negate x) i))

/-- The `*` operator (`impl Mul` via `impl MulAssign`). -/
def mul (xs ys : List Trit) : List Trit :=
  mulLoop xs 0 ys (List.replicate xs.length Trit.Zero)

theorem mulLoop_spec (x : List Trit) (ts : List Trit) (i : Nat) (acc : List Trit)
    (hacc : acc.length = x.length) :
    (mulLoop x i ts acc).length = x.length ∧
    Int.ModEq (3 ^ x.length) (to_int (mulLoop x i ts acc))
      (to_int acc + 3 ^ i * to_int ts * to_int x) := by
  induction ts generalizing i acc with
  | nil =>
      refine ⟨hacc, ?_⟩
      show Int.ModEq _ (to_int acc) _
      rw [to_int_nil, mul_zero, zero_mul, add_zero]
  | cons t ts ih =>
      cases t with
      | Zero =>
          have hih := ih (i + 1) acc hacc
          refine ⟨hih.1, ?_⟩
          have heq : to_int acc + 3 ^ (i + 1) * to_int ts * to_int x =
              to_int acc + 3 ^ i * to_int (Trit.Zero :: ts) * to_int x := by
            rw [to_int_cons, show (Trit.Zero).toInt = 0 from rfl, pow_succ]
            ring
          show Int.ModEq _ (to_int (mulLoop x (i + 1) ts acc)) _
          rw [← heq]
          exact hih.2
      | Pos =>
          have hlen2 : (add_assign acc (shift_left x i)).length = x.length := by
            rw [add_assign_length]
            exact hacc
          have hih := ih (i + 1) (add_assign acc (shift_left x i)) hlen2
          refine ⟨hih.1, ?_⟩
          have ha := add_assign_congr acc (shift_left x i)
            (by rw [shift_left_length]; exact hacc)
          rw [hacc] at ha
          have hs := shift_left_congr x i
          have hacc2 : Int.ModEq (3 ^ x.length)
              (to_int (add_assign acc (shift_left x i)))
              (to_int acc + 3 ^ i * to_int x) :=
            ha.trans (Int.ModEq.add_left (to_int acc) hs)
          have heq : to_int acc + 3 ^ i * to_int x +
              3 ^ (i + 1) * to_int ts * to_int x =
              to_int acc + 3 ^ i * to_int (Trit.Pos :: ts) * to_int x := by
            rw [to_int_cons, show (Trit.Pos).toInt = 1 from rfl, pow_succ]
            ring
          show Int.ModEq _ (to_int (mulLoop x (i + 1) ts
            (add_assign acc (shift_left x i)))) _
          rw [← heq]
          exact hih.2.trans (Int.ModEq.add_right _ hacc2)
      | Neg =>
          have hlen2 : (add_assign acc (shift_left (negate x) i)).length = x.length := by
            rw [add_assign_length]
            exact hacc
          have hih := ih (i + 1) (add_assign acc (shift_left (negate x) i)) hlen2
          refine ⟨hih.1, ?_⟩
          have ha := add_assign_congr acc (shift_left (negate x) i)
            (by rw [shift_left_length, negate_length]; exact hacc)
          rw [hacc] at ha
          have hs := shift_left_congr (negate x) i
          rw [negate_length, to_int_negate] at hs
          have hacc2 : Int.ModEq (3 ^ x.length)
              (to_int (add_assign acc (shift_left (negate x) i)))
              (to_int acc + 3 ^ i * -to_int x) :=
            ha.trans (Int.ModEq.add_left (to_int acc) hs)
          have heq : to_int acc + 3 ^ i * -to_int x +
              3 ^ (i + 1) * to_int ts * to_int x =
              to_int acc + 3 ^ i * to_int (Trit.Neg :: ts) * to_int x := by
            rw [to_int_cons, show (Trit.Neg).toInt = -1 from rfl, pow_succ]
            ring
          show Int.ModEq _ (to_int (mulLoop x (i + 1) ts
            (add_assign acc (shift_left (negate x) i)))) _
          rw [← heq]
          exact hih.2.trans (Int.ModEq.add_right _ hacc2)

theorem mul_length (xs ys : List Trit) : (mul xs ys).length = xs.length :=
  (mulLoop_spec xs ys 0 (List.replicate xs.length Trit.Zero)
    (List.length_replicate xs.length Trit.Zero)).1

theorem mul_congr (xs ys : List Trit) :
    Int.ModEq (3 ^ xs.length) (to_int (mul xs ys))
      (to_int xs * to_int ys) := by
  have h := (mulLoop_spec xs ys 0 (List.replicate xs.length Trit.Zero)
    (List.length_replicate xs.length Trit.Zero)).2
  rw [to_int_replicate_zero, pow_zero] at h
  have heq : (0 : Int) + 1 * to_int ys * to_int xs = to_int xs * to_int ys := by
    ring
  rw [heq] at h
  exact h

theorem fromIntLoop_zero (n : Nat) :
    fromIntLoop n 0 = (List.replicate n Trit.Zero, 0) := by
  cases n with
  | zero => rfl
  | succ n => simp [fromIntLoop]

theorem from_int_zero (N : Nat) : from_int N 0 = List.replicate N Trit.Zero := by
  unfold from_int
  rw [fromIntLoop_zero]

theorem from_int_one (n : Nat) :
    from_int (n + 1) 1 = Trit.Pos :: List.replicate n Trit.Zero := by
  unfold from_int
  have hexp : fromIntLoop (n + 1) 1 =
      (tritOfBalanced (balDigit 1) :: (fromIntLoop n (balNext 1)).1,
       (fromIntLoop n (balNext 1)).2) := by
    simp only [fromIntLoop]
    rw [if_neg (by norm_num)]
  rw [hexp]
  have h1 : tritOfBalanced (balDigit 1) = Trit.Pos := by decide
  have h2 : balNext 1 = 0 := by decide
  rw [h1, h2, fromIntLoop_zero]

theorem mulLoop_zeros (x : List Trit) (n : Nat) (i : Nat) (acc : List Trit) :
    mulLoop x i (List.replicate n Trit.Zero) acc = acc := by
  induction n generalizing i with
  | zero => rfl
  | succ n ih =>
      rw [List.replicate_succ]
      show mulLoop x (i + 1) (List.replicate n Trit.Zero) acc = acc
      exact ih (i + 1)

theorem shift_left_zero (xs : List Trit) : shift_left xs 0 = xs := by
  unfold shift_left
  rw [List.replicate_zero, List.nil_append, List.take_length]

theorem addAssignGo_zeros (xs : List Trit) :
    addAssignGo Trit.Zero (List.replicate xs.length Trit.Zero) xs = xs := by
  induction xs with
  | nil => rfl
  | cons b bs ih =>
      rw [List.length_cons, List.replicate_succ]
      have hfa : Trit.full_add Trit.Zero b Trit.Zero = (b, Trit.Zero) := by
        cases b <;> rfl
      show (Trit.full_add Trit.Zero b Trit.Zero).1 ::
        addAssignGo (Trit.full_add Trit.Zero b Trit.Zero).2
          (List.replicate bs.length Trit.Zero) bs = b :: bs
      rw [hfa]
      show b :: addAssignGo Trit.Zero (List.replicate bs.length Trit.Zero) bs = b :: bs
      rw [ih]

theorem mul_one_right (xs : List Trit) (h : 1 ≤ xs.length) :
    mul xs (from_int xs.length 1) = xs := by
  rcases hn : xs.length with _ | n
  · omega
  · rw [from_int_one]
    unfold mul
    rw [hn]
    show mulLoop xs 1 (List.replicate n Trit.Zero)
      (add_assign (List.replicate (n + 1) Trit.Zero) (shift_left xs 0)) = xs
    rw [mulLoop_zeros, shift_left_zero, add_assign, ← hn, addAssignGo_zeros]

theorem mul_zero_right (xs : List Trit) :
    mul xs (from_int xs.length 0) = from_int xs.length 0 := by
  rw [from_int_zero]
  unfold mul
  exact mulLoop_zeros xs xs.length 0 _

end BalancedInt

/-- Claim C4: the product (shift-and-add over the trits of the right
operand, ascending) represents to_int x * to_int y modulo 3 ^ N; when the
mathematical product lies in the representable range it is exact; and
x * 0 = 0 and x * 1 = x. -/
theorem claim_C4_multiplication (xs ys : List Trit) (h : ys.length = xs.length) :
    Int.ModEq (3 ^ xs.length) (BalancedInt.to_int (BalancedInt.mul xs ys))
      (BalancedInt.to_int xs * BalancedInt.to_int ys) ∧
    ((-BalancedInt.maxRep xs.length ≤
        BalancedInt.to_int xs * BalancedInt.to_int ys →
      BalancedInt.to_int xs * BalancedInt.to_int ys ≤
        BalancedInt.maxRep xs.length →
      BalancedInt.to_int (BalancedInt.mul xs ys) =
        BalancedInt.to_int xs * BalancedInt.to_int ys)) ∧
    BalancedInt.mul xs (BalancedInt.from_int xs.length 0) =
      BalancedInt.from_int xs.length 0 ∧
    (1 ≤ xs.length →
      BalancedInt.mul xs (BalancedInt.from_int xs.length 1) = xs) := by
  refine ⟨BalancedInt.mul_congr xs ys, ?_, BalancedInt.mul_zero_right xs,
    BalancedInt.mul_one_right xs⟩
  intro h1 h2
  have hb := BalancedInt.to_int_bound (BalancedInt.mul xs ys)
  rw [BalancedInt.mul_length] at hb
  exact BalancedInt.eq_of_modEq_bounded (BalancedInt.mul_congr xs ys)
    hb.1 hb.2 h1 h2

/-- Witness for claim C4 at width 6, values 5 and 3. -/
theorem claim_C4_multiplication_witness :
    BalancedInt.to_int
      (BalancedInt.mul (BalancedInt.from_int 6 5) (BalancedInt.from_int 6 3)) =
    BalancedInt.to_int (BalancedInt.from_int 6 5) *
      BalancedInt.to_int (BalancedInt.from_int 6 3) :=
  (claim_C4_multiplication (BalancedInt.from_int 6 5) (BalancedInt.from_int 6 3)
    (by decide)).2.1 (by decide) (by decide)

namespace BalancedInt

/-- `BalancedInt::sign`: the most significant non-zero trit, Zero for the
all-zero value (scan from index N-1 downward). -/
def sign (xs : List Trit) : Trit :=
  (xs.reverse.find? (fun t => decide (t ≠ Trit.Zero))).getD Trit.Zero

/-- `BalancedInt::is_zero`: every trit is Zero. -/
def is_zero (xs : List Trit) : Bool :=
  xs.all (fun t => decide (t = Trit.Zero))

/-- `BalancedInt::abs`: negate when the sign is Neg, otherwise a copy. -/
def abs (xs : List Trit) : List Trit :=
  if sign xs = Trit.Neg then negate xs else xs

/-- The msb scan of `div_rem`: the largest index holding a non-zero trit,
0 when there is none (the source loop breaks at the first hit from the
top, leaving the initial value 0 otherwise). -/
def msbScan (xs : List Trit) : Nat → Nat
  | 0 => 0
  | i + 1 => if xs.getD i Trit.Zero ≠ Trit.Zero then i else msbScan xs i

def msb_pos (xs : List Trit) : Nat :=
  msbScan xs xs.length

/-- The Rust comparison `a.abs() <= b.abs()` used inside `div_rem`:
`Ord::cmp` not returning Greater. -/
def absLe (a b : List Trit) : Bool :=
  decide (cmp (abs a) (abs b) ≠ Ordering.gt)

/-- The long-division loop of `BalancedInt::div_rem`: for i from k-1 down
to 0, try subtracting the divisor shifted left by i (quotient trit Pos if
the magnitude does not grow), otherwise try adding it (quotient trit Neg),
otherwise leave the position at Zero. -/
def divLoop (d : List Trit) : Nat → List Trit × List Trit → List Trit × List Trit
  | 0, qr => qr
  | k + 1, qr =>
      if absLe (sub qr.2 (shift_left d k)) qr.2 then
        divLoop d k (qr.1.set k Trit.Pos, sub qr.2 (shift_left d k))
      else if absLe (add qr.2 (shift_left d k)) qr.2 then
        divLoop d k (qr.1.set k Trit.Neg, add qr.2 (shift_left d k))
      else divLoop d k qr

/-- `BalancedInt::div_rem`: panics (None) on a zero divisor; otherwise runs
the long-division loop on the absolute divisor, from position
N - divisor_msb - 1 down to 0, and negates the quotient when the divisor
was negative. -/
def div_rem (xs ds : List Trit) : Option (List Trit × List Trit) :=
  if is_zero ds then none
  else
    if sign ds = Trit.Neg then
      some (negate (divLoop (abs ds) (xs.length - msb_pos (abs ds))
              (List.replicate xs.length Trit.Zero, xs)).1,
            (divLoop (abs ds) (xs.length - msb_pos (abs ds))
              (List.replicate xs.length Trit.Zero, xs)).2)
    else
      some (divLoop (abs ds) (xs.length - msb_pos (abs ds))
              (List.replicate xs.length Trit.Zero, xs))

theorem abs_length (xs : List Trit) : (abs xs).length = xs.length := by
  unfold abs
  split_ifs
  · exact negate_length xs
  · rfl

theorem to_int_abs_neg {xs : List Trit} (h : sign xs = Trit.Neg) :
    to_int (abs xs) = -to_int xs := by
  unfold abs
  rw [if_pos h]
  exact to_int_negate xs

theorem abs_of_not_neg {xs : List Trit} (h : ¬sign xs = Trit.Neg) :
    abs xs = xs := by
  unfold abs
  rw [if_neg h]

theorem getD_replicate (n j : Nat) :
    (List.replicate n Trit.Zero).getD j Trit.Zero = Trit.Zero := by
  induction n generalizing j with
  | zero => rfl
  | succ n ih =>
      cases j with
      | zero => rfl
      | succ j => exact ih j

theorem getD_set_ne (xs : List Trit) (i j : Nat) (t : Trit) (hne : j ≠ i) :
    (xs.set i t).getD j Trit.Zero = xs.getD j Trit.Zero := by
  induction xs generalizing i j with
  | nil => rfl
  | cons a as ih =>
      cases i with
      | zero =>
          cases j with
          | zero => omega
          | succ j => rfl
      | succ i =>
          cases j with
          | zero => rfl
          | succ j => exact ih i j (by omega)

theorem to_int_set (xs : List Trit) (i : Nat) (t : Trit) (hi : i < xs.length)
    (hz : xs.getD i Trit.Zero = Trit.Zero) :
    to_int (xs.set i t) = to_int xs + t.toInt * 3 ^ i := by
  induction xs generalizing i with
  | nil => exact absurd hi (by simp)
  | cons a as ih =>
      cases i with
      | zero =>
          have ha : a = Trit.Zero := hz
          subst ha
          show to_int (t :: as) = _
          rw [to_int_cons, to_int_cons, pow_zero,
            show (Trit.Zero).toInt = 0 from rfl]
          ring
      | succ i =>
          show to_int (a :: as.set i t) = _
          rw [to_int_cons, to_int_cons,
            ih i (by simpa using hi) hz, pow_succ]
          ring

theorem divLoop_spec (d : List Trit) (N : Nat) (hd : d.length = N) :
    ∀ (k : Nat) (q r : List Trit), q.length = N → r.length = N → k ≤ N →
      (∀ j, j < k → q.getD j Trit.Zero = Trit.Zero) →
      (divLoop d k (q, r)).1.length = N ∧ (divLoop d k (q, r)).2.length = N ∧
      Int.ModEq ((3 : Int) ^ N)
        (to_int (divLoop d k (q, r)).1 * to_int d + to_int (divLoop d k (q, r)).2)
        (to_int q * to_int d + to_int r) := by
  intro k
  induction k with
  | zero =>
      intro q r hq hr hk hqz
      exact ⟨hq, hr, Int.ModEq.refl _⟩
  | succ k ih =>
      intro q r hq hr hk hqz
      have hkN : k < N := hk
      have hshlen : (shift_left d k).length = N := by rw [shift_left_length, hd]
      have hsh := shift_left_congr d k
      rw [hd] at hsh
      by_cases h1 : absLe (sub r (shift_left d k)) r = true
      · have hstep : divLoop d (k + 1) (q, r) =
            divLoop d k (q.set k Trit.Pos, sub r (shift_left d k)) := by
          show (if absLe (sub r (shift_left d k)) r then _ else _) = _
          rw [if_pos h1]
        rw [hstep]
        have hq2 : (q.set k Trit.Pos).length = N := by
          rw [List.length_set]
          exact hq
        have hr2 : (sub r (shift_left d k)).length = N := by
          rw [sub_length, hshlen, hr, min_self]
        have hqz2 : ∀ j, j < k → (q.set k Trit.Pos).getD j Trit.Zero = Trit.Zero :=
          fun j hj => by
            rw [getD_set_ne q k j Trit.Pos (by omega)]
            exact hqz j (by omega)
        have hmain := ih (q.set k Trit.Pos) (sub r (shift_left d k)) hq2 hr2
          (by omega) hqz2
        refine ⟨hmain.1, hmain.2.1, hmain.2.2.trans ?_⟩
        have hqv : to_int (q.set k Trit.Pos) = to_int q + 3 ^ k := by
          rw [to_int_set q k Trit.Pos (by rw [hq]; exact hkN) (hqz k (by omega)),
            show (Trit.Pos).toInt = 1 from rfl]
          ring
        have hrv : Int.ModEq ((3 : Int) ^ N) (to_int (sub r (shift_left d k)))
            (to_int r - 3 ^ k * to_int d) := by
          have hs := sub_congr r (shift_left d k) (by rw [hshlen, hr])
          rw [hr] at hs
          exact hs.trans ((Int.ModEq.refl (to_int r)).sub hsh)
        have h2 := Int.ModEq.add_left (to_int (q.set k Trit.Pos) * to_int d) hrv
        have e : to_int (q.set k Trit.Pos) * to_int d +
            (to_int r - 3 ^ k * to_int d) = to_int q * to_int d + to_int r := by
          rw [hqv]
          ring
        rw [e] at h2
        exact h2
      · by_cases h2c : absLe (add r (shift_left d k)) r = true
        · have hstep : divLoop d (k + 1) (q, r) =
              divLoop d k (q.set k Trit.Neg, add r (shift_left d k)) := by
            show (if absLe (sub r (shift_left d k)) r then _ else _) = _
            rw [if_neg h1, if_pos h2c]
          rw [hstep]
          have hq2 : (q.set k Trit.Neg).length = N := by
            rw [List.length_set]
            exact hq
          have hr2 : (add r (shift_left d k)).length = N := by
            rw [add_length, hshlen, hr, min_self]
          have hqz2 : ∀ j, j < k → (q.set k Trit.Neg).getD j Trit.Zero = Trit.Zero :=
            fun j hj => by
              rw [getD_set_ne q k j Trit.Neg (by omega)]
              exact hqz j (by omega)
          have hmain := ih (q.set k Trit.Neg) (add r (shift_left d k)) hq2 hr2
            (by omega) hqz2
          refine ⟨hmain.1, hmain.2.1, hmain.2.2.trans ?_⟩
          have hqv : to_int (q.set k Trit.Neg) = to_int q - 3 ^ k := by
            rw [to_int_set q k Trit.Neg (by rw [hq]; exact hkN) (hqz k (by omega)),
              show (Trit.Neg).toInt = -1 from rfl]
            ring
          have hrv : Int.ModEq ((3 : Int) ^ N) (to_int (add r (shift_left d k)))
              (to_int r + 3 ^ k * to_int d) := by
            have hs := add_congr r (shift_left d k) (by rw [hshlen, hr])
            rw [hr] at hs
            exact hs.trans ((Int.ModEq.refl (to_int r)).add hsh)
          have h2 := Int.ModEq.add_left (to_int (q.set k Trit.Neg) * to_int d) hrv
          have e : to_int (q.set k Trit.Neg) * to_int d +
              (to_int r + 3 ^ k * to_int d) = to_int q * to_int d + to_int r := by
            rw [hqv]
            ring
          rw [e] at h2
          exact h2
        · have hstep : divLoop d (k + 1) (q, r) = divLoop d k (q, r) := by
            show (if absLe (sub r (shift_left d k)) r then _ else _) = _
            rw [if_neg h1, if_neg h2c]
          rw [hstep]
          exact ih q r hq hr (by omega) (fun j hj => hqz j (by omega))

/-- The quotient and remainder of a non-zero division satisfy
quotient * divisor + remainder = dividend modulo 3 ^ N. -/
theorem div_rem_congr (xs ds : List Trit) (hlen : ds.length = xs.length)
    (hnz : is_zero ds = false) :
    ∃ q r, div_rem xs ds = some (q, r) ∧
      Int.ModEq ((3 : Int) ^ xs.length)
        (to_int q * to_int ds + to_int r) (to_int xs) := by
  have hdlen : (abs ds).length = xs.length := by rw [abs_length, hlen]
  have hmain := divLoop_spec (abs ds) xs.length hdlen
    (xs.length - msb_pos (abs ds)) (List.replicate xs.length Trit.Zero) xs
    (List.length_replicate xs.length Trit.Zero) rfl (Nat.sub_le _ _)
    (fun j hj => getD_replicate xs.length j)
  have hbase := hmain.2.2
  rw [to_int_replicate_zero, zero_mul, zero_add] at hbase
  have hnz2 : ¬is_zero ds = true := by rw [hnz]; exact Bool.false_ne_true
  by_cases hsgn : sign ds = Trit.Neg
  · refine ⟨negate (divLoop (abs ds) (xs.length - msb_pos (abs ds))
        (List.replicate xs.length Trit.Zero, xs)).1,
      (divLoop (abs ds) (xs.length - msb_pos (abs ds))
        (List.replicate xs.length Trit.Zero, xs)).2, ?_, ?_⟩
    · unfold div_rem
      rw [if_neg hnz2, if_pos hsgn]
    · have habs : to_int (abs ds) = -to_int ds := to_int_abs_neg hsgn
      rw [habs] at hbase
      rw [to_int_negate,
        show -to_int (divLoop (abs ds) (xs.length - msb_pos (abs ds))
            (List.replicate xs.length Trit.Zero, xs)).1 * to_int ds =
          to_int (divLoop (abs ds) (xs.length - msb_pos (abs ds))
            (List.replicate xs.length Trit.Zero, xs)).1 * -to_int ds from by ring]
      exact hbase
  · refine ⟨(divLoop (abs ds) (xs.length - msb_pos (abs ds))
        (List.replicate xs.length Trit.Zero, xs)).1,
      (divLoop (abs ds) (xs.length - msb_pos (abs ds))
        (List.replicate xs.length Trit.Zero, xs)).2, ?_, ?_⟩
    · unfold div_rem
      rw [if_neg hnz2, if_neg hsgn]
    · rw [show to_int (abs ds) = to_int ds from by rw [abs_of_not_neg hsgn]] at hbase
      exact hbase

end BalancedInt

/-- Claim C7: `div_rem` fails if and only if the divisor is zero, the
failure being the panic of the source (modelled as None); for every
non-zero divisor it completes and returns a quotient-remainder pair. -/
theorem claim_C7_division_by_zero_fatal (xs ds : List Trit) :
    (BalancedInt.div_rem xs ds = none ↔ BalancedInt.is_zero ds = true) ∧
    (BalancedInt.is_zero ds = false →
      ∃ p, BalancedInt.div_rem xs ds = some p) := by
  by_cases hz : BalancedInt.is_zero ds = true
  · refine ⟨⟨fun _ => hz, fun _ => ?_⟩, fun hf => ?_⟩
    · unfold BalancedInt.div_rem
      rw [if_pos hz]
    · rw [hz] at hf
      exact Bool.noConfusion hf
  · constructor
    · refine ⟨fun hnone => ?_, fun h => absurd h hz⟩
      unfold BalancedInt.div_rem at hnone
      rw [if_neg hz] at hnone
      by_cases hs : BalancedInt.sign ds = Trit.Neg
      · rw [if_pos hs] at hnone
        exact Option.noConfusion hnone
      · rw [if_neg hs] at hnone
        exact Option.noConfusion hnone
    · intro _
      unfold BalancedInt.div_rem
      rw [if_neg hz]
      by_cases hs : BalancedInt.sign ds = Trit.Neg
      · rw [if_pos hs]
        exact ⟨_, rfl⟩
      · rw [if_neg hs]
        exact ⟨_, rfl⟩

/-- Witness for claim C7: dividing by zero at width 6 gives the modelled
panic. -/
theorem claim_C7_division_by_zero_fatal_witness :
    BalancedInt.div_rem (BalancedInt.from_int 6 10) (BalancedInt.from_int 6 0) =
      none :=
  (claim_C7_division_by_zero_fatal (BalancedInt.from_int 6 10)
    (BalancedInt.from_int 6 0)).1.mpr (by decide)

set_option maxRecDepth 100000 in
/-- Counterexample for claim C2: dividing the maximum 24-trit value
(3 ^ 24 - 1) / 2 = 141214768240 by 2 returns quotient 47071589413 and
remainder 47071589414, whose absolute value vastly exceeds the absolute
value 2 of the divisor, so the remainder-magnitude bound of the claim is
false on the code. -/
theorem claim_C2_div_rem_counterexample :
    BalancedInt.div_rem (BalancedInt.from_int 24 (BalancedInt.maxRep 24))
        (BalancedInt.from_int 24 2) =
      some (BalancedInt.from_int 24 47071589413,
        BalancedInt.from_int 24 47071589414) ∧
    ¬ ((BalancedInt.to_int (BalancedInt.from_int 24 47071589414)).natAbs ≤
        (BalancedInt.to_int (BalancedInt.from_int 24 2)).natAbs) := by
  exact ⟨by decide, by decide⟩

/-- Claim C2 as amended: for every dividend and every non-zero divisor of
the same width N, `div_rem` returns a pair (quotient, remainder) with
quotient * divisor + remainder equal to the dividend modulo 3 ^ N; the
remainder-magnitude bound of the original claim does not hold in general
(see the counterexample). -/
theorem claim_C2_div_rem_invariant (xs ds : List Trit)
    (hlen : ds.length = xs.length) (hnz : BalancedInt.is_zero ds = false) :
    ∃ q r, BalancedInt.div_rem xs ds = some (q, r) ∧
      Int.ModEq ((3 : Int) ^ xs.length)
        (BalancedInt.to_int q * BalancedInt.to_int ds + BalancedInt.to_int r)
        (BalancedInt.to_int xs) :=
  BalancedInt.div_rem_congr xs ds hlen hnz

/-- Witness for the amended claim C2 at width 6, dividing 10 by 3. -/
theorem claim_C2_div_rem_invariant_witness :
    ∃ q r, BalancedInt.div_rem (BalancedInt.from_int 6 10)
        (BalancedInt.from_int 6 3) = some (q, r) ∧
      Int.ModEq ((3 : Int) ^ (BalancedInt.from_int 6 10).length)
        (BalancedInt.to_int q * BalancedInt.to_int (BalancedInt.from_int 6 3) +
          BalancedInt.to_int r)
        (BalancedInt.to_int (BalancedInt.from_int 6 10)) :=
  claim_C2_div_rem_invariant (BalancedInt.from_int 6 10)
    (BalancedInt.from_int 6 3) (by decide) (by decide)

namespace BalancedInt

/-- The error enum `BIntError` of crates/bternary/src/balanced_int.rs,
extended with the value-does-not-fit condition that spec section 4.3
requires of `write_range` (the source variant of that error is part of
its malformed error handling, see the doc of `write_trit_range`). -/
inductive BIntError : Type where
  | RangeInvalid : Nat → Nat → BIntError
  | ValueRange : BIntError
  | ValueDoesNotFit : BIntError
deriving DecidableEq, Repr

/-- `BalancedInt::read_trit_range(start, end)`: validate start ≤ end < N,
else a RangeInvalid error; otherwise Horner-sum the trits from index end
down to start.  The final `Int::try_from` narrowing of the source cannot
fail here because the capability integer type is modelled as unbounded ℤ
(for the Word binding the type is i64 and every 24-trit sub-word fits). -/
def read_trit_range (xs : List Trit) (s e : Nat) : Except BIntError Int :=
  if s > e ∨ e ≥ xs.length then Except.error (BIntError.RangeInvalid s e)
  else Except.ok (to_int ((xs.drop s).take (e - s + 1)))

/-- Modelled from the spec: the source `write_trit_range` in
crates/bternary/src/balanced_int.rs is incomplete and malformed (its range
checks are assertions that panic instead of returning the documented
recoverable error, its error-returning arms do not type-check, and its
digit step mis-balances negative values), which spec section 9 records,
prescribing the intended contract of section 4.3 instead.  This definition
follows that contract: fail with RangeInvalid unless start ≤ end < N,
decompose the value into end - start + 1 balanced digits with the same
balancing rule as `from_int`, write them to indices start..=end, and fail
with ValueDoesNotFit when a non-zero remainder of the value is left. -/
def write_trit_range (xs : List Trit) (v : Int) (s e : Nat) :
    Except BIntError (List Trit) :=
  if s > e ∨ e ≥ xs.length then Except.error (BIntError.RangeInvalid s e)
  else
    if (fromIntLoop (e - s + 1) v).2 ≠ 0 then
      Except.error BIntError.ValueDoesNotFit
    else Except.ok (xs.take s ++ (fromIntLoop (e - s + 1) v).1 ++ xs.drop (e + 1))

theorem fromIntLoop_rest_ne (k : Nat) (v : Int)
    (h : v < -maxRep k ∨ maxRep k < v) : (fromIntLoop k v).2 ≠ 0 := by
  intro h0
  have hv := fromIntLoop_value k v
  rw [h0, mul_zero, add_zero] at hv
  have hb := to_int_bound (fromIntLoop k v).1
  rw [fromIntLoop_length] at hb
  omega

theorem write_trit_range_ok (xs : List Trit) (v : Int) (s e : Nat)
    (h1 : s ≤ e) (h2 : e < xs.length)
    (hv1 : -maxRep (e - s + 1) ≤ v) (hv2 : v ≤ maxRep (e - s + 1)) :
    write_trit_range xs v s e =
      Except.ok (xs.take s ++ (fromIntLoop (e - s + 1) v).1 ++ xs.drop (e + 1)) := by
  unfold write_trit_range
  rw [if_neg (by omega)]
  rw [if_neg (by
    rw [fromIntLoop_rest_zero (e - s + 1) v hv1 hv2]
    exact fun hc => hc rfl)]

theorem read_after_write (xs : List Trit) (v : Int) (s e : Nat)
    (h1 : s ≤ e) (h2 : e < xs.length)
    (hv1 : -maxRep (e - s + 1) ≤ v) (hv2 : v ≤ maxRep (e - s + 1)) :
    read_trit_range
      (xs.take s ++ (fromIntLoop (e - s + 1) v).1 ++ xs.drop (e + 1)) s e =
      Except.ok v := by
  have hdl : (fromIntLoop (e - s + 1) v).1.length = e - s + 1 :=
    fromIntLoop_length (e - s + 1) v
  have htl : (xs.take s).length = s := by
    rw [List.length_take]
    omega
  have hxl : (xs.take s ++ (fromIntLoop (e - s + 1) v).1 ++
      xs.drop (e + 1)).length = xs.length := by
    rw [List.length_append, List.length_append, htl, hdl, List.length_drop]
    omega
  unfold read_trit_range
  rw [if_neg (by omega)]
  have hdrop : (xs.take s ++ (fromIntLoop (e - s + 1) v).1 ++
      xs.drop (e + 1)).drop s =
      (fromIntLoop (e - s + 1) v).1 ++ xs.drop (e + 1) := by
    rw [List.append_assoc]
    exact List.drop_left' htl
  rw [hdrop, List.take_left' hdl]
  have hval := fromIntLoop_value (e - s + 1) v
  rw [fromIntLoop_rest_zero (e - s + 1) v hv1 hv2, mul_zero, add_zero] at hval
  rw [hval]

end BalancedInt

/-- Claim C8: the intended contract of `write_range` (the source
implementation is malformed; this is proved of the model of the contract
that spec sections 4.3 and 9 prescribe): an invalid range start > end or
end ≥ N is a recoverable RangeInvalid error; a valid range writes exactly
end - start + 1 balanced digits into indices start..=end; and a value
whose magnitude exceeds what the sub-range can encode is rejected with a
value-does-not-fit error, never silently truncated. -/
theorem claim_C8_write_range_contract (xs : List Trit) (v : Int) (s e : Nat) :
    (s > e ∨ e ≥ xs.length →
      BalancedInt.write_trit_range xs v s e =
        Except.error (BalancedInt.BIntError.RangeInvalid s e)) ∧
    (s ≤ e → e < xs.length →
      -BalancedInt.maxRep (e - s + 1) ≤ v →
      v ≤ BalancedInt.maxRep (e - s + 1) →
      BalancedInt.write_trit_range xs v s e =
        Except.ok (xs.take s ++ (BalancedInt.fromIntLoop (e - s + 1) v).1 ++
          xs.drop (e + 1)) ∧
      (BalancedInt.fromIntLoop (e - s + 1) v).1.length = e - s + 1) ∧
    (s ≤ e → e < xs.length →
      (v < -BalancedInt.maxRep (e - s + 1) ∨ BalancedInt.maxRep (e - s + 1) < v) →
      BalancedInt.write_trit_range xs v s e =
        Except.error BalancedInt.BIntError.ValueDoesNotFit) := by
  refine ⟨fun hbad => ?_, fun h1 h2 hv1 hv2 => ?_, fun h1 h2 hv => ?_⟩
  · unfold BalancedInt.write_trit_range
    rw [if_pos hbad]
  · exact ⟨BalancedInt.write_trit_range_ok xs v s e h1 h2 hv1 hv2,
      BalancedInt.fromIntLoop_length (e - s + 1) v⟩
  · unfold BalancedInt.write_trit_range
    rw [if_neg (by omega), if_pos (BalancedInt.fromIntLoop_rest_ne (e - s + 1) v hv)]

/-- Witness for claim C8: an inverted range is rejected with RangeInvalid. -/
theorem claim_C8_write_range_contract_witness :
    BalancedInt.write_trit_range (BalancedInt.from_int 6 0) 5 1 0 =
      Except.error (BalancedInt.BIntError.RangeInvalid 1 0) :=
  (claim_C8_write_range_contract (BalancedInt.from_int 6 0) 5 1 0).1
    (by decide)

/-- Claim C9: for every value of width N, every pair of indices
start ≤ end < N and every v encodable in end - start + 1 balanced digits,
`write_range(v, start, end)` followed by `read_range(start, end)` returns
exactly v, while writing a value too large for that span fails (the write
operation is the model of the spec contract, the source variant being
malformed; the read operation is the source `read_trit_range`). -/
theorem claim_C9_sub_range_round_trip (xs : List Trit) (v : Int) (s e : Nat)
    (h1 : s ≤ e) (h2 : e < xs.length) :
    ((-BalancedInt.maxRep (e - s + 1) ≤ v ∧ v ≤ BalancedInt.maxRep (e - s + 1)) →
      ∃ xs2, BalancedInt.write_trit_range xs v s e = Except.ok xs2 ∧
        BalancedInt.read_trit_range xs2 s e = Except.ok v) ∧
    ((v < -BalancedInt.maxRep (e - s + 1) ∨ BalancedInt.maxRep (e - s + 1) < v) →
      BalancedInt.write_trit_range xs v s e =
        Except.error BalancedInt.BIntError.ValueDoesNotFit) := by
  constructor
  · intro hv
    exact ⟨xs.take s ++ (BalancedInt.fromIntLoop (e - s + 1) v).1 ++ xs.drop (e + 1),
      BalancedInt.write_trit_range_ok xs v s e h1 h2 hv.1 hv.2,
      BalancedInt.read_after_write xs v s e h1 h2 hv.1 hv.2⟩
  · intro hv
    unfold BalancedInt.write_trit_range
    rw [if_neg (by omega), if_pos (BalancedInt.fromIntLoop_rest_ne (e - s + 1) v hv)]

/-- Witness for claim C9: writing 5 into trits 1..=3 of the zero value of
width 6 and reading the range back returns 5. -/
theorem claim_C9_sub_range_round_trip_witness :
    ∃ xs2, BalancedInt.write_trit_range (BalancedInt.from_int 6 0) 5 1 3 =
        Except.ok xs2 ∧
      BalancedInt.read_trit_range xs2 1 3 = Except.ok 5 :=
  (claim_C9_sub_range_round_trip (BalancedInt.from_int 6 0) 5 1 3
    (by decide) (by decide)).1 (by decide)
